import Mathlib

/-!
Shallow embedding of the sqlf SQL statement builder (leporo/sqlf).

Strings are modelled as `List Char` (`Str`); the fragment buffer,
chunk spans and the rendered text follow the Go source: `stmt.go`
(`Stmt`, `addChunk`, `String`, `Clone`, `SubQuery`, `Union`, the
position constants), `dialect.go` (`writePg`), `util.go` (`insertAt`)
and `pool.go` (`reuseStmt`), `sqlcache.go` (`ClearCache`,
`getCachedSQL`, `putCachedSQL`).
-/

abbrev Str := List Char

/-- Dialect: the source exposes two dialect values, `NoDialect` and
`PostgreSQL`, compared by pointer identity. -/
inductive Dialect where
  | NoDialect
  | PostgreSQL
deriving DecidableEq, Repr

/-- stmtChunk from stmt.go: a clause-order key, a span into the
fragment buffer, whether the span already holds an expression, and the
number of arguments the span contributes. -/
structure Chunk where
  pos : Nat
  bufLow : Nat
  bufHigh : Nat
  hasExpr : Bool
  argLen : Nat
deriving DecidableEq, Repr

instance : Inhabited Chunk := ⟨⟨0, 0, 0, false, 0⟩⟩

/-- Stmt from stmt.go; `buf` is the fragment buffer, `sql` the cached
rendered text (nil pointer modelled as `none`), `args` the bound
argument list and `dest` the scan-target list. -/
structure Stmt (α : Type) where
  dialect : Dialect
  pos : Nat
  chunks : List Chunk
  buf : Str
  sql : Option Str
  args : List α
  dest : List α
deriving DecidableEq, Repr

/-- Position constants from stmt.go (`iota` multiplied by 100). -/
def posStart : Nat := 100
def posWith : Nat := 200
def posInsert : Nat := 300
def posInsertFields : Nat := 400
def posValues : Nat := 500
def posDelete : Nat := 600
def posUpdate : Nat := 700
def posSet : Nat := 800
def posSelect : Nat := 900
def posInto : Nat := 1000
def posFrom : Nat := 1100
def posWhere : Nat := 1200
def posGroupBy : Nat := 1300
def posHaving : Nat := 1400
def posUnion : Nat := 1500
def posOrderBy : Nat := 1600
def posLimit : Nat := 1700
def posOffset : Nat := 1800
def posReturning : Nat := 1900
def posEnd : Nat := 2000

/-- insertAt from util.go: appends src to dest and, when the insertion
index lies inside the old elements, shifts the tail right so that src
occupies positions index..index+len(src)-1. -/
def insertAt {α : Type} (dest src : List α) (index : Nat) : List α :=
  if src.length = 0 then dest
  else if index < dest.length then
    dest.take index ++ src ++ dest.drop index
  else dest ++ src

/-- Outcome of the backward scan in addChunk (stmt.go): either a chunk
with an equal position was found at index i (break in the `pos == pos`
case), or the scan stopped at a chunk with a smaller position
(`chunk.pos < pos` case, insertion goes to i+1), or the loop ran out
(insertion at index 0); in each case argTail is the accumulated
argument count of the chunks with strictly greater position that the
scan stepped over. -/
inductive ScanOut where
  | found (i : Nat) (argTail : Nat)
  | below (i : Nat) (argTail : Nat)
  | exhausted (argTail : Nat)
deriving DecidableEq, Repr

/-- The backward loop of addChunk, expressed as a walk over the
reversed chunk list: the head of the remaining reversed list is the
chunk at index rest.length of the original list. -/
def scanChunks (p : Nat) : List Chunk → Nat → ScanOut
  | [], argTail => .exhausted argTail
  | c :: rest, argTail =>
    if c.pos = p then .found rest.length argTail
    else if c.pos < p then .below rest.length argTail
    else scanChunks p rest (argTail + c.argLen)

def scan (p : Nat) (chunks : List Chunk) : ScanOut :=
  scanChunks p chunks.reverse 0

/-- addChunk from stmt.go. Remembers the position, scans the chunk
list backwards; an equal-position chunk whose span ends at the buffer
write head is extended in place (separator first: the clause separator
if it already has an expression, a single space otherwise); an
equal-position chunk that is not at the write head gets a new chunk
right after it whose span starts with the separator and whose clause
keyword is suppressed; otherwise a new chunk (clause keyword, a space
when an expression follows, then the expression) is inserted at the
sorted location. Arguments are spliced into the argument list at
len(args) - argTail and the cached rendered text is dropped; the early
return (empty expression on an existing position) changes nothing but
the remembered position. -/
def Stmt.addChunk {α : Type} (q : Stmt α) (p : Nat) (clause expr : Str)
    (args : List α) (sep : Str) : Stmt α × Nat :=
  let q := { q with pos := p }
  let argLen := args.length
  let bufLow := q.buf.length
  match scan p q.chunks with
  | .found i argTail =>
    if expr = [] then (q, i)
    else
      let chunk := q.chunks.getD i default
      let sepText := if chunk.hasExpr then sep else [' ']
      let buf1 := q.buf ++ sepText ++ expr
      let args1 := if 0 < argLen then insertAt q.args args (q.args.length - argTail) else q.args
      if chunk.bufHigh = bufLow then
        let chunk1 := { chunk with
          argLen := chunk.argLen + argLen
          bufHigh := buf1.length
          hasExpr := true }
        ({ q with
          buf := buf1
          chunks := q.chunks.set i chunk1
          args := args1
          sql := none }, i)
      else
        let chunk1 : Chunk := ⟨p, bufLow, buf1.length, if expr = [] then false else true, argLen⟩
        ({ q with
          buf := buf1
          chunks := q.chunks.insertIdx (i + 1) chunk1
          args := args1
          sql := none }, i + 1)
  | .below i argTail =>
    let lead := if clause ≠ [] then clause ++ (if expr ≠ [] then [' '] else []) else []
    let buf1 := q.buf ++ lead ++ expr
    let chunk1 : Chunk := ⟨p, bufLow, buf1.length, if expr = [] then false else true, argLen⟩
    let args1 := if 0 < argLen then insertAt q.args args (q.args.length - argTail) else q.args
    ({ q with
      buf := buf1
      chunks := q.chunks.insertIdx (i + 1) chunk1
      args := args1
      sql := none }, i + 1)
  | .exhausted argTail =>
    let lead := if clause ≠ [] then clause ++ (if expr ≠ [] then [' '] else []) else []
    let buf1 := q.buf ++ lead ++ expr
    let chunk1 : Chunk := ⟨p, bufLow, buf1.length, if expr = [] then false else true, argLen⟩
    let args1 := if 0 < argLen then insertAt q.args args (q.args.length - argTail) else q.args
    ({ q with
      buf := buf1
      chunks := q.chunks.insertIdx 0 chunk1
      args := args1
      sql := none }, 0)

/-- A fresh statement attached to a dialect (getStmt in pool.go with a
pristine pooled object). -/
def newStmt (α : Type) (d : Dialect) : Stmt α :=
  { dialect := d, pos := 0, chunks := [], buf := [], sql := none, args := [], dest := [] }

/-- Select method from stmt.go. -/
def Stmt.Select {α : Type} (q : Stmt α) (expr : Str) (args : List α) : Stmt α :=
  (q.addChunk posSelect "SELECT".toList expr args ", ".toList).1

/-- From method from stmt.go. -/
def Stmt.From {α : Type} (q : Stmt α) (expr : Str) (args : List α) : Stmt α :=
  (q.addChunk posFrom "FROM".toList expr args ", ".toList).1

/-- Where method from stmt.go. -/
def Stmt.Where {α : Type} (q : Stmt α) (expr : Str) (args : List α) : Stmt α :=
  (q.addChunk posWhere "WHERE".toList expr args " AND ".toList).1

/-- GroupBy method from stmt.go. -/
def Stmt.GroupBy {α : Type} (q : Stmt α) (expr : Str) : Stmt α :=
  (q.addChunk posGroupBy "GROUP BY".toList expr [] ", ".toList).1

/-- Having method from stmt.go. -/
def Stmt.Having {α : Type} (q : Stmt α) (expr : Str) (args : List α) : Stmt α :=
  (q.addChunk posHaving "HAVING".toList expr args " AND ".toList).1

/-- OrderBy method from stmt.go (a single expression; the Go variadic
form joins the expressions with a comma first). -/
def Stmt.OrderBy {α : Type} (q : Stmt α) (expr : Str) : Stmt α :=
  (q.addChunk posOrderBy "ORDER BY".toList expr [] ", ".toList).1

/-- Limit method from stmt.go. -/
def Stmt.Limit {α : Type} (q : Stmt α) (limit : α) : Stmt α :=
  (q.addChunk posLimit "LIMIT ?".toList [] [limit] []).1

/-- Offset method from stmt.go. -/
def Stmt.Offset {α : Type} (q : Stmt α) (offset : α) : Stmt α :=
  (q.addChunk posOffset "OFFSET ?".toList [] [offset] []).1

/-- Returning method from stmt.go. -/
def Stmt.Returning {α : Type} (q : Stmt α) (expr : Str) : Stmt α :=
  (q.addChunk posReturning "RETURNING".toList expr [] ", ".toList).1

/-- Expr method from stmt.go: appends an expression to the most
recently added clause. -/
def Stmt.Expr {α : Type} (q : Stmt α) (expr : Str) (args : List α) : Stmt α :=
  (q.addChunk q.pos [] expr args ", ".toList).1

/-- To method from stmt.go: appends scan targets. -/
def Stmt.To {α : Type} (q : Stmt α) (dest : List α) : Stmt α :=
  if 0 < dest.length then { q with dest := insertAt q.dest dest q.dest.length } else q

/-- writePg from dialect.go: copies the fragment replacing each
unescaped ? with a dollar and the running argument number; an escaped
placeholder (backslash before ?) becomes a literal ? with the
backslash consumed and no counter increment. Returns the new counter. -/
def writePg (argNo : Nat) : Str → Str × Nat
  | '\\' :: '?' :: rest =>
    let p := writePg argNo rest
    ('?' :: p.1, p.2)
  | '?' :: rest =>
    let p := writePg (argNo + 1) rest
    ('$' :: (Nat.repr argNo).toList ++ p.1, p.2)
  | c :: rest =>
    let p := writePg argNo rest
    (c :: p.1, p.2)
  | [] => ([], argNo)

/-- The span of a chunk inside the fragment buffer. -/
def Chunk.span (buf : Str) (c : Chunk) : Str :=
  (buf.drop c.bufLow).take (c.bufHigh - c.bufLow)

/-- State threaded through the rendering loop of Stmt.String: the text
built so far, the statement-wide placeholder counter, the position of
the previous chunk and whether we are at the first chunk. -/
structure RenderSt where
  out : Str
  argNo : Nat
  pos : Nat
  first : Bool
deriving DecidableEq, Repr

/-- One iteration of the rendering loop in Stmt.String: a space
between chunks of strictly increasing position, then the chunk span,
rewritten by writePg only when the chunk contributed arguments and the
dialect is PostgreSQL. -/
def renderStep (d : Dialect) (buf : Str) (st : RenderSt) (c : Chunk) : RenderSt :=
  let out0 := if ¬ st.first ∧ st.pos < c.pos then st.out ++ [' '] else st.out
  let s := c.span buf
  let p := if 0 < c.argLen ∧ d = Dialect.PostgreSQL then writePg st.argNo s else (s, st.argNo)
  { out := out0 ++ p.1, argNo := p.2, pos := c.pos, first := false }

/-- The rendering pass of Stmt.String (the `q.sql == nil` branch). -/
def buildSQL {α : Type} (q : Stmt α) : Str :=
  (q.chunks.foldl (renderStep q.dialect q.buf) ⟨[], 1, 0, true⟩).out

/-- String method from stmt.go: serves the cached rendered text when
present, otherwise renders and caches. Returns the updated statement
together with the text. -/
def Stmt.String {α : Type} (q : Stmt α) : Stmt α × Str :=
  match q.sql with
  | some s => (q, s)
  | none =>
    let s := buildSQL q
    ({ q with sql := some s }, s)

/-- Invalidate from stmt.go: drops the cached rendered text. -/
def Stmt.Invalidate {α : Type} (q : Stmt α) : Stmt α :=
  { q with sql := none }

/-- Args accessor from stmt.go. -/
def Stmt.Args {α : Type} (q : Stmt α) : List α := q.args

/-- Dest accessor from stmt.go. -/
def Stmt.Dest {α : Type} (q : Stmt α) : List α := q.dest

/-- Clone from stmt.go: a fresh pooled statement with the dialect
attached, into which the chunk list, argument list, scan-target list,
fragment buffer and (when present) the cached rendered text are all
copied element by element. The remembered position is not copied. -/
def Stmt.Clone {α : Type} (q : Stmt α) : Stmt α :=
  let stmt := newStmt α q.dialect
  { stmt with
    chunks := stmt.chunks ++ q.chunks
    args := insertAt stmt.args q.args 0
    dest := insertAt stmt.dest q.dest 0
    buf := stmt.buf ++ q.buf
    sql := q.sql }

/-- SubQuery from stmt.go: renders the child eagerly with its dialect
forced to NoDialect, writes prefix, child text and suffix into the
parent's buffer as one span of the chunk produced at the parent's
current position, and carries the child's arguments into the parent.
The Go code then releases the child to the pool. -/
def Stmt.SubQuery {α : Type} (q : Stmt α) (pre suf : Str) (query : Stmt α) : Stmt α :=
  let delimiter := if q.pos = posWhere then " AND ".toList else ", ".toList
  let r := q.addChunk q.pos [] pre query.args delimiter
  let q1 := r.1
  let index := r.2
  let query1 := if query.dialect ≠ Dialect.NoDialect then
      { query with dialect := Dialect.NoDialect, sql := none }
    else query
  let text := (Stmt.String query1).2
  let buf1 := q1.buf ++ text ++ suf
  let chunk1 := { q1.chunks.getD index default with bufHigh := buf1.length }
  { q1 with buf := buf1, chunks := q1.chunks.set index chunk1 }

/-- Union from stmt.go: picks a position after every existing chunk
(at least posUnion), adds a chunk holding the UNION or UNION ALL
keyword, then writes the child's NoDialect rendering into the parent's
buffer and extends the chunk span over it, carrying the child's
arguments into the parent. -/
def Stmt.Union {α : Type} (q : Stmt α) (all : Bool) (query : Stmt α) : Stmt α :=
  let p0 := posUnion
  let p := if h : q.chunks ≠ [] then
      let last := (q.chunks.getLast h).pos
      if p0 ≤ last then last + 1 else p0
    else p0
  let kw := if all then "UNION ALL ".toList else "UNION ".toList
  let r := q.addChunk p kw [] query.args []
  let q1 := r.1
  let index := r.2
  let query1 := if query.dialect ≠ Dialect.NoDialect then
      { query with dialect := Dialect.NoDialect, sql := none }
    else query
  let text := (Stmt.String query1).2
  let buf1 := q1.buf ++ text
  let chunk1 := { q1.chunks.getD index default with bufHigh := buf1.length }
  { q1 with buf := buf1, chunks := q1.chunks.set index chunk1 }

/-- A Go slice of references, modelled as its backing store (entries
are none when nil) together with the current length. -/
structure GoSlice (α : Type) where
  store : List (Option α)
  len : Nat
deriving DecidableEq, Repr

/-- Setting the first n entries of a backing store to nil. -/
def nilify {α : Type} (store : List (Option α)) (n : Nat) : List (Option α) :=
  (store.take n).map (fun _ => none) ++ store.drop n

/-- The element-by-element clearing loop of reuseStmt in pool.go:
when the slice is non-empty every entry up to the current length is
set to nil, then the slice is truncated to length zero; the backing
store is retained. -/
def GoSlice.clear {α : Type} (s : GoSlice α) : GoSlice α :=
  if 0 < s.len then { store := nilify s.store s.len, len := 0 } else s

/-- The pooled statement as reuseStmt sees it: the chunk slice (only
its length is reset; storage is retained), the argument and
scan-target slices with their backing stores, the fragment buffer
handle and the cached rendered text. -/
structure PoolStmt (α : Type) where
  chunksStore : List Chunk
  chunksLen : Nat
  args : GoSlice α
  dest : GoSlice α
  buf : Option Str
  sql : Option Str
deriving DecidableEq, Repr

/-- reuseStmt from pool.go: truncates the chunk slice keeping its
backing storage, clears the argument and scan-target slices element by
element before truncating them, returns the fragment buffer to its
pool and drops the cached rendered text, then puts the statement back
into the statement pool. -/
def reuseStmt {α : Type} (q : PoolStmt α) : PoolStmt α :=
  { chunksStore := q.chunksStore
    chunksLen := 0
    args := q.args.clear
    dest := q.dest.clear
    buf := none
    sql := none }

/-- The per-dialect render cache from sqlcache.go: a mapping from raw
fragment byte sequences to rendered text, modelled as an association
list where a put shadows earlier entries. -/
abbrev sqlCache : Type := List (Str × Str)

/-- getCachedSQL from sqlcache.go: looks the raw buffer bytes up in
the mapping, by exact byte equality. -/
def getCachedSQL (c : sqlCache) (buf : Str) : Option Str :=
  match c.find? (fun kv => kv.1 = buf) with
  | some kv => some kv.2
  | none => none

/-- putCachedSQL from sqlcache.go: stores the rendered text under the
raw buffer bytes as key. -/
def putCachedSQL (c : sqlCache) (buf sql : Str) : sqlCache :=
  (buf, sql) :: c

/-- ClearCache from sqlcache.go: replaces the mapping with an empty
one. -/
def ClearCache (_ : sqlCache) : sqlCache := ([] : List (Str × Str))

/-- Rendering as claim C9 describes it: the render of a statement is
served from the Dialect's shared cache, keyed by the exact raw buffer
byte sequence, falling back to deriving it. The actual Stmt.String
(stmt.go) never consults this mapping; this definition exists to be
compared against it. -/
def claimRenderViaDialectCache {α : Type} (c : sqlCache) (q : Stmt α) : Str :=
  match getCachedSQL c q.buf with
  | some s => s
  | none => buildSQL q

/-- Count of unescaped placeholders in a fragment, mirroring the
writePg scan: an escaped placeholder is skipped, an unescaped one is
counted. -/
def qCount : Str → Nat
  | '\\' :: '?' :: rest => qCount rest
  | '?' :: rest => 1 + qCount rest
  | _ :: rest => qCount rest
  | [] => 0

/-- Total argument count of a list of chunks. -/
def sumArg (cs : List Chunk) : Nat := (cs.map Chunk.argLen).sum

/-- One addChunk call: position, clause keyword, expression, arguments
and separator. -/
structure CallSpec (α : Type) where
  pos : Nat
  clause : Str
  expr : Str
  args : List α
  sep : Str
deriving DecidableEq, Repr

/-- A sequence of addChunk calls applied in order. -/
def applyCalls {α : Type} (q : Stmt α) (cs : List (CallSpec α)) : Stmt α :=
  cs.foldl (fun q c => (q.addChunk c.pos c.clause c.expr c.args c.sep).1) q

/-- The text a fresh chunk receives in the buffer: the clause keyword,
a space when an expression follows, then the expression. -/
def leadOf (clause expr : Str) : Str :=
  (if clause ≠ [] then clause ++ (if expr ≠ [] then [' '] else []) else []) ++ expr

/-- Logical content of a chunk: its position key, its span text and
its block of arguments. -/
structure Entry (α : Type) where
  pos : Nat
  text : Str
  args : List α
deriving DecidableEq, Repr

/-- The entry a single fresh addChunk call contributes. -/
def entryOf {α : Type} (c : CallSpec α) : Entry α :=
  ⟨c.pos, leadOf c.clause c.expr, c.args⟩

/-- Canonical rendering step over entries, the counterpart of
renderStep on abstract chunk contents. -/
def renderEntryStep {α : Type} (d : Dialect) (st : RenderSt) (e : Entry α) : RenderSt :=
  let out0 := if ¬ st.first ∧ st.pos < e.pos then st.out ++ [' '] else st.out
  let p := if 0 < e.args.length ∧ d = Dialect.PostgreSQL then writePg st.argNo e.text
    else (e.text, st.argNo)
  { out := out0 ++ p.1, argNo := p.2, pos := e.pos, first := false }

/-- Canonical rendering of a list of entries. -/
def specRender {α : Type} (d : Dialect) (m : List (Entry α)) : Str :=
  (m.foldl (renderEntryStep d) ⟨[], 1, 0, true⟩).out

/-- A chunk realizes an entry inside a given buffer: same position,
its span reads the entry's text, its argument count is the block
length, and the span lies inside the buffer. -/
def ChunkMatches {α : Type} (buf : Str) (c : Chunk) (e : Entry α) : Prop :=
  c.pos = e.pos ∧ c.span buf = e.text ∧ c.argLen = e.args.length ∧
  c.bufLow ≤ c.bufHigh ∧ c.bufHigh ≤ buf.length

/-- A statement realizes a list of entries: chunks match pointwise and
the argument list is the in-order concatenation of the entry blocks. -/
def StmtModels {α : Type} (q : Stmt α) (m : List (Entry α)) : Prop :=
  List.Forall₂ (ChunkMatches q.buf) q.chunks m ∧ q.args = (m.map Entry.args).flatten

/-- The chunk sequence is sorted ascending by position. -/
def ChunksSorted {α : Type} (q : Stmt α) : Prop :=
  List.Pairwise (fun a b : Chunk => a.pos ≤ b.pos) q.chunks

/-- The argument list decomposes into per-chunk blocks in chunk order,
each of the recorded length: the structural form of placeholder /
argument alignment. -/
def ArgsAligned {α : Type} (q : Stmt α) : Prop :=
  ∃ blocks : List (List α), q.args = blocks.flatten ∧
    List.Forall₂ (fun (b : List α) (c : Chunk) => b.length = c.argLen) blocks q.chunks

theorem writePg_cons_default (a : Nat) (c : Char) (rest : Str)
    (h1 : ∀ r, ¬(c = '\\' ∧ rest = '?' :: r)) (h2 : c ≠ '?') :
    writePg a (c :: rest) = ((c :: (writePg a rest).1), (writePg a rest).2) := by
  rw [writePg.eq_def]
  split
  · rename_i r heq
    rw [List.cons.injEq] at heq
    exact absurd ⟨heq.1, heq.2⟩ (h1 r)
  · rename_i heq
    rw [List.cons.injEq] at heq
    exact absurd heq.1 h2
  · rename_i c2 r2 hx hy heq
    rw [List.cons.injEq] at heq
    obtain ⟨e1, e2⟩ := heq
    subst e1; subst e2
    rfl
  · rename_i heq
    exact absurd heq (List.cons_ne_nil c rest)

theorem qCount_cons_default (c : Char) (rest : Str)
    (h1 : ∀ r, ¬(c = '\\' ∧ rest = '?' :: r)) (h2 : c ≠ '?') :
    qCount (c :: rest) = qCount rest := by
  rw [qCount.eq_def]
  split
  · rename_i r heq
    rw [List.cons.injEq] at heq
    exact absurd ⟨heq.1, heq.2⟩ (h1 r)
  · rename_i heq
    rw [List.cons.injEq] at heq
    exact absurd heq.1 h2
  · rename_i c2 r2 hx hy heq
    rw [List.cons.injEq] at heq
    rw [heq.2]
  · rename_i heq
    exact absurd heq (List.cons_ne_nil c rest)

/-- The placeholder counter comes out of writePg advanced by exactly
the number of unescaped placeholders of the fragment. -/
theorem writePg_snd (a : Nat) (s : Str) : (writePg a s).2 = a + qCount s := by
  induction a, s using writePg.induct with
  | case1 a rest ih => simp [writePg, qCount, ih]
  | case2 a rest ih =>
    simp [writePg, qCount, ih]
    omega
  | case3 a c rest h1 h2 ih =>
    rw [writePg_cons_default a c rest (fun r hr => h1 r hr.1 hr.2) h2,
        qCount_cons_default c rest (fun r hr => h1 r hr.1 hr.2) h2]
    exact ih
  | case4 a => simp [writePg, qCount]

/-- The counter never decreases. -/
theorem writePg_mono (a : Nat) (s : Str) : a ≤ (writePg a s).2 := by
  rw [writePg_snd]
  exact Nat.le_add_right a (qCount s)

theorem getD_append_length {α : Type} (l₁ l₂ : List α) (x : α) :
    (l₁ ++ l₂).getD l₁.length x = l₂.getD 0 x := by
  induction l₁ with
  | nil => rfl
  | cons a t ih => simpa using ih

theorem set_append_length {α : Type} (l₁ l₂ : List α) (a : α) :
    (l₁ ++ l₂).set l₁.length a = l₁ ++ l₂.set 0 a := by
  induction l₁ with
  | nil => rfl
  | cons b t ih => simp [ih]

theorem insertIdx_append_length {α : Type} (l₁ l₂ : List α) (a : α) :
    List.insertIdx l₁.length a (l₁ ++ l₂) = l₁ ++ a :: l₂ := by
  induction l₁ with
  | nil => rfl
  | cons b t ih => simpa [List.insertIdx_succ_cons] using ih

/-- A span entirely inside the buffer is unchanged by appending. -/
theorem span_append (buf ext : Str) (c : Chunk) (h : c.bufHigh ≤ buf.length) :
    c.span (buf ++ ext) = c.span buf := by
  unfold Chunk.span
  rcases Nat.le_total c.bufLow c.bufHigh with hlh | hlh
  · rw [List.drop_append_of_le_length (Nat.le_trans hlh h),
        List.take_append_of_le_length (by rw [List.length_drop]; omega)]
  · have h0 : c.bufHigh - c.bufLow = 0 := Nat.sub_eq_zero_of_le hlh
    simp [h0]

/-- The span of a fresh chunk covering exactly the appended text. -/
theorem span_fresh (buf ext : Str) (c : Chunk) (hlo : c.bufLow = buf.length)
    (hhi : c.bufHigh = buf.length + ext.length) :
    c.span (buf ++ ext) = ext := by
  unfold Chunk.span
  rw [hlo, hhi, List.drop_append_of_le_length (Nat.le_refl _), List.drop_length]
  simp

/-- insertAt at a block boundary splices src between the two halves. -/
theorem insertAt_boundary {α : Type} (l₁ l₂ src : List α) :
    insertAt (l₁ ++ l₂) src l₁.length = l₁ ++ src ++ l₂ := by
  unfold insertAt
  by_cases hs : src.length = 0
  · rw [if_pos hs, List.length_eq_zero.mp hs]
    simp
  · rw [if_neg hs]
    by_cases hidx : l₁.length < (l₁ ++ l₂).length
    · rw [if_pos hidx, List.take_append_of_le_length (Nat.le_refl _),
          List.drop_append_of_le_length (Nat.le_refl _), List.take_length, List.drop_length]
      simp
    · have hl2 : l₂ = [] := by
        rw [List.length_append] at hidx
        have h0 : l₂.length = 0 := by omega
        exact List.length_eq_zero.mp h0
      subst hl2
      rw [if_neg hidx]
      simp

theorem scanChunks_cons (p : Nat) (c : Chunk) (rest : List Chunk) (t : Nat) :
    scanChunks p (c :: rest) t =
      if c.pos = p then .found rest.length t
      else if c.pos < p then .below rest.length t
      else scanChunks p rest (t + c.argLen) := rfl

/-- Stepping the scan over a run of strictly-greater positions only
accumulates their argument counts. -/
theorem scanChunks_skip (p : Nat) (rs rest : List Chunk) (t : Nat)
    (h : ∀ c ∈ rs, p < c.pos) :
    scanChunks p (rs ++ rest) t = scanChunks p rest (t + sumArg rs) := by
  induction rs generalizing t with
  | nil => simp [sumArg]
  | cons c rs ih =>
    have hc : p < c.pos := h c (List.mem_cons_self c rs)
    have hne : ¬ c.pos = p := by omega
    have hnlt : ¬ c.pos < p := by omega
    rw [List.cons_append, scanChunks_cons, if_neg hne, if_neg hnlt,
        ih (t + c.argLen) (fun x hx => h x (List.mem_cons_of_mem c hx))]
    congr 1
    simp only [sumArg, List.map_cons, List.sum_cons]
    omega

theorem sumArg_reverse (cs : List Chunk) : sumArg cs.reverse = sumArg cs := by
  unfold sumArg
  rw [List.map_reverse, List.sum_reverse]

/-- Scan outcome when the last chunk of position at most p has exactly
position p: found at its index, argTail the arguments of the strictly
greater tail. -/
theorem scan_found (p : Nat) (A C : List Chunk) (b : Chunk)
    (hb : b.pos = p) (hC : ∀ c ∈ C, p < c.pos) :
    scan p (A ++ b :: C) = .found A.length (sumArg C) := by
  unfold scan
  rw [List.reverse_append, List.reverse_cons, List.append_assoc]
  rw [scanChunks_skip p C.reverse ([b] ++ A.reverse) 0
      (fun c hc => hC c (List.mem_reverse.mp hc))]
  simp [scanChunks, if_pos hb, sumArg_reverse]

/-- Scan outcome when the last chunk of position at most p has a
strictly smaller position: insertion goes right after it. -/
theorem scan_below (p : Nat) (A C : List Chunk) (b : Chunk)
    (hb : b.pos < p) (hC : ∀ c ∈ C, p < c.pos) :
    scan p (A ++ b :: C) = .below A.length (sumArg C) := by
  unfold scan
  rw [List.reverse_append, List.reverse_cons, List.append_assoc]
  rw [scanChunks_skip p C.reverse ([b] ++ A.reverse) 0
      (fun c hc => hC c (List.mem_reverse.mp hc))]
  have hne : ¬ b.pos = p := by omega
  simp [scanChunks, if_neg hne, if_pos hb, sumArg_reverse]

/-- Scan outcome when every chunk has a strictly greater position. -/
theorem scan_exhausted (p : Nat) (C : List Chunk) (hC : ∀ c ∈ C, p < c.pos) :
    scan p C = .exhausted (sumArg C) := by
  unfold scan
  have := scanChunks_skip p C.reverse [] 0 (fun c hc => hC c (List.mem_reverse.mp hc))
  rw [List.append_nil] at this
  rw [this]
  simp [scanChunks, sumArg_reverse]

theorem insertAt_zero_src {α : Type} (dest src : List α) (i : Nat) (h : src.length = 0) :
    insertAt dest src i = dest := by
  unfold insertAt
  rw [if_pos h]

theorem insertIdx_after {α : Type} (A C : List α) (b x : α) :
    List.insertIdx (A.length + 1) x (A ++ b :: C) = A ++ b :: x :: C := by
  have h1 : A ++ b :: C = (A ++ [b]) ++ C := by simp
  have h2 : A.length + 1 = (A ++ [b]).length := by simp
  rw [h1, h2, insertIdx_append_length]
  simp

/-- addChunk in the in-place extension case: the last chunk of
position at most p has position exactly p and its span ends at the
buffer write head; the chunk is extended (separator, then the
expression), no new chunk is created, and the arguments go in before
those of the strictly-greater positions. -/
theorem addChunk_merge {α : Type} (q : Stmt α) (p : Nat) (clause expr : Str)
    (args : List α) (sep : Str) (A C : List Chunk) (b : Chunk)
    (hpart : q.chunks = A ++ b :: C) (hbp : b.pos = p) (hC : ∀ c ∈ C, p < c.pos)
    (hhead : b.bufHigh = q.buf.length) (hexpr : expr ≠ []) :
    q.addChunk p clause expr args sep =
      ({ q with
          pos := p
          buf := q.buf ++ (if b.hasExpr then sep else [' ']) ++ expr
          chunks := A ++ { b with
              argLen := b.argLen + args.length
              bufHigh := (q.buf ++ (if b.hasExpr then sep else [' ']) ++ expr).length
              hasExpr := true } :: C
          args := insertAt q.args args (q.args.length - sumArg C)
          sql := none }, A.length) := by
  rcases q with ⟨d, pos0, chunks0, buf0, sql0, args0, dest0⟩
  simp only at hpart hhead
  subst hpart
  have hscan : scan p (A ++ b :: C) = ScanOut.found A.length (sumArg C) :=
    scan_found p A C b hbp hC
  unfold Stmt.addChunk
  simp only [hscan]
  rw [if_neg hexpr]
  have hgetD : (A ++ b :: C).getD A.length default = b := by
    rw [getD_append_length]; rfl
  simp only [hgetD]
  rw [if_pos hhead, set_append_length]
  by_cases hargs : 0 < args.length
  · rw [if_pos hargs]
    simp
  · rw [if_neg hargs, insertAt_zero_src args0 args _ (by omega)]
    simp

/-- addChunk when a chunk of equal position exists but its span is no
longer at the buffer write head: the separator and the expression are
written as a fresh chunk placed right after the found chunk, the
clause keyword is suppressed. -/
theorem addChunk_newSame {α : Type} (q : Stmt α) (p : Nat) (clause expr : Str)
    (args : List α) (sep : Str) (A C : List Chunk) (b : Chunk)
    (hpart : q.chunks = A ++ b :: C) (hbp : b.pos = p) (hC : ∀ c ∈ C, p < c.pos)
    (hhead : b.bufHigh ≠ q.buf.length) (hexpr : expr ≠ []) :
    q.addChunk p clause expr args sep =
      ({ q with
          pos := p
          buf := q.buf ++ (if b.hasExpr then sep else [' ']) ++ expr
          chunks := A ++ b ::
            (⟨p, q.buf.length, (q.buf ++ (if b.hasExpr then sep else [' ']) ++ expr).length,
              true, args.length⟩ : Chunk) :: C
          args := insertAt q.args args (q.args.length - sumArg C)
          sql := none }, A.length + 1) := by
  rcases q with ⟨d, pos0, chunks0, buf0, sql0, args0, dest0⟩
  simp only at hpart hhead
  subst hpart
  have hscan : scan p (A ++ b :: C) = ScanOut.found A.length (sumArg C) :=
    scan_found p A C b hbp hC
  unfold Stmt.addChunk
  simp only [hscan]
  rw [if_neg hexpr]
  have hgetD : (A ++ b :: C).getD A.length default = b := by
    rw [getD_append_length]; rfl
  simp only [hgetD]
  rw [if_neg hhead, if_neg hexpr, insertIdx_after]
  by_cases hargs : 0 < args.length
  · rw [if_pos hargs]
  · rw [if_neg hargs, insertAt_zero_src args0 args _ (by omega)]

/-- addChunk when no chunk of equal position exists: a fresh chunk
(clause keyword, a space when an expression follows, the expression)
is inserted between the smaller and the strictly greater positions,
and the arguments go in just before those of the greater positions. -/
theorem addChunk_insert {α : Type} (q : Stmt α) (p : Nat) (clause expr : Str)
    (args : List α) (sep : Str) (A C : List Chunk)
    (hpart : q.chunks = A ++ C) (hC : ∀ c ∈ C, p < c.pos)
    (hA : A = [] ∨ ∃ A' b, A = A' ++ [b] ∧ b.pos < p) :
    q.addChunk p clause expr args sep =
      ({ q with
          pos := p
          buf := q.buf ++ leadOf clause expr
          chunks := A ++
            (⟨p, q.buf.length, (q.buf ++ leadOf clause expr).length,
              if expr = [] then false else true, args.length⟩ : Chunk) :: C
          args := insertAt q.args args (q.args.length - sumArg C)
          sql := none }, A.length) := by
  rcases q with ⟨d, pos0, chunks0, buf0, sql0, args0, dest0⟩
  simp only at hpart
  subst hpart
  rcases hA with hA | ⟨A', b, hA, hbp⟩
  · subst hA
    have hscan : scan p ([] ++ C) = ScanOut.exhausted (sumArg C) := by
      rw [List.nil_append]
      exact scan_exhausted p C hC
    unfold Stmt.addChunk
    simp only [hscan]
    unfold leadOf
    by_cases hargs : 0 < args.length
    · rw [if_pos hargs]
      simp
    · rw [if_neg hargs, insertAt_zero_src args0 args _ (by omega)]
      simp
  · subst hA
    have hshape : (A' ++ [b]) ++ C = A' ++ b :: C := by simp
    have hscan : scan p ((A' ++ [b]) ++ C) = ScanOut.below A'.length (sumArg C) := by
      rw [hshape]
      exact scan_below p A' C b hbp hC
    unfold Stmt.addChunk
    simp only [hscan]
    unfold leadOf
    rw [hshape, insertIdx_after]
    have hlen : (A' ++ [b]).length = A'.length + 1 := by simp
    by_cases hargs : 0 < args.length
    · rw [if_pos hargs]
      simp
    · rw [if_neg hargs, insertAt_zero_src args0 args _ (by omega)]
      simp

/-- A chunk matching is preserved when more text is appended to the
buffer. -/
theorem chunkMatches_append {α : Type} (buf ext : Str) (c : Chunk) (e : Entry α)
    (h : ChunkMatches buf c e) : ChunkMatches (buf ++ ext) c e := by
  obtain ⟨h1, h2, h3, h4, h5⟩ := h
  refine ⟨h1, ?_, h3, h4, ?_⟩
  · rw [span_append buf ext c h5]
    exact h2
  · rw [List.length_append]
    omega

/-- Corresponding chunk and entry render identically from any state. -/
theorem renderStep_eq_entry {α : Type} (d : Dialect) (buf : Str) (st : RenderSt)
    (c : Chunk) (e : Entry α) (h : ChunkMatches buf c e) :
    renderStep d buf st c = renderEntryStep d st e := by
  obtain ⟨h1, h2, h3, _, _⟩ := h
  unfold renderStep renderEntryStep
  rw [h1, h2, h3]

/-- The rendering fold only depends on the logical chunk contents. -/
theorem foldl_render_eq {α : Type} (d : Dialect) (buf : Str)
    (chunks : List Chunk) (m : List (Entry α))
    (h : List.Forall₂ (ChunkMatches buf) chunks m) (st : RenderSt) :
    chunks.foldl (renderStep d buf) st = m.foldl (renderEntryStep d) st := by
  induction h generalizing st with
  | nil => rfl
  | @cons c e cs es hrel htail ih =>
    simp only [List.foldl_cons]
    rw [renderStep_eq_entry d buf st c e hrel]
    exact ih _

/-- Rendering a statement that realizes an entry list gives the
canonical rendering of those entries. -/
theorem buildSQL_models {α : Type} (q : Stmt α) (m : List (Entry α))
    (h : List.Forall₂ (ChunkMatches q.buf) q.chunks m) :
    buildSQL q = specRender q.dialect m := by
  unfold buildSQL specRender
  rw [foldl_render_eq q.dialect q.buf q.chunks m h]

theorem forall₂_split {α β : Type} {R : α → β → Prop} {l : List α} {m₁ m₂ : List β}
    (h : List.Forall₂ R l (m₁ ++ m₂)) :
    ∃ l₁ l₂, l = l₁ ++ l₂ ∧ List.Forall₂ R l₁ m₁ ∧ List.Forall₂ R l₂ m₂ :=
  ⟨l.take m₁.length, l.drop m₁.length, (List.take_append_drop m₁.length l).symm,
    List.forall₂_take_append l m₁ m₂ h, List.forall₂_drop_append l m₁ m₂ h⟩

theorem forall₂_exists_right {α β : Type} {R : α → β → Prop} {l : List α} {m : List β}
    (h : List.Forall₂ R l m) {x : α} (hx : x ∈ l) : ∃ y ∈ m, R x y := by
  induction h with
  | nil => cases hx
  | @cons a b as bs hrel htail ih =>
    rcases List.mem_cons.mp hx with rfl | hx'
    · exact ⟨b, List.mem_cons_self b bs, hrel⟩
    · obtain ⟨y, hy, hR⟩ := ih hx'
      exact ⟨y, List.mem_cons_of_mem b hy, hR⟩

theorem sumArg_of_forall₂ {α : Type} {buf : Str} {l : List Chunk} {m : List (Entry α)}
    (h : List.Forall₂ (ChunkMatches buf) l m) :
    sumArg l = ((m.map Entry.args).flatten).length := by
  induction h with
  | nil => rfl
  | @cons c e cs es hrel htail ih =>
    simp only [sumArg, List.map_cons, List.sum_cons, List.flatten_cons,
      List.length_append] at *
    rw [hrel.2.2.1, ih]

theorem forall₂_append_both {α β : Type} {R : α → β → Prop} {l₁ l₂ : List α} {m₁ m₂ : List β}
    (h1 : List.Forall₂ R l₁ m₁) (h2 : List.Forall₂ R l₂ m₂) :
    List.Forall₂ R (l₁ ++ l₂) (m₁ ++ m₂) := by
  induction h1 with
  | nil => exact h2
  | @cons a b as bs hrel htail ih => exact List.Forall₂.cons hrel ih

/-- Inserting a fresh call between the entries of smaller and strictly
greater position preserves the realization invariant, with the call's
entry spliced in between. -/
theorem addChunk_models {α : Type} (q : Stmt α) (c : CallSpec α) (m₁ m₂ : List (Entry α))
    (hM : StmtModels q (m₁ ++ m₂))
    (h₁ : ∀ e ∈ m₁, e.pos < c.pos) (h₂ : ∀ e ∈ m₂, c.pos < e.pos) :
    StmtModels (q.addChunk c.pos c.clause c.expr c.args c.sep).1 (m₁ ++ entryOf c :: m₂) := by
  obtain ⟨hF, hargs⟩ := hM
  obtain ⟨l₁, l₂, hsplit, hF₁, hF₂⟩ := forall₂_split hF
  have hC : ∀ ch ∈ l₂, c.pos < ch.pos := by
    intro ch hch
    obtain ⟨e, he, hrel⟩ := forall₂_exists_right hF₂ hch
    rw [hrel.1]
    exact h₂ e he
  have hA : l₁ = [] ∨ ∃ A' b, l₁ = A' ++ [b] ∧ b.pos < c.pos := by
    rcases List.eq_nil_or_concat l₁ with h | ⟨A', b, h⟩
    · exact Or.inl h
    · rw [List.concat_eq_append] at h
      refine Or.inr ⟨A', b, h, ?_⟩
      have hb : b ∈ l₁ := by
        rw [h]
        exact List.mem_append_right A' (List.mem_singleton.mpr rfl)
      obtain ⟨e, he, hrel⟩ := forall₂_exists_right hF₁ hb
      rw [hrel.1]
      exact h₁ e he
  rw [addChunk_insert q c.pos c.clause c.expr c.args c.sep l₁ l₂ hsplit hC hA]
  constructor
  · simp only
    apply forall₂_append_both
    · exact List.Forall₂.imp
        (fun a b h => chunkMatches_append q.buf (leadOf c.clause c.expr) a b h) hF₁
    · apply List.Forall₂.cons
      · refine ⟨rfl, ?_, rfl, ?_, ?_⟩
        · exact span_fresh q.buf (leadOf c.clause c.expr) _ rfl (by rw [List.length_append])
        · simp only [List.length_append]
          omega
        · exact Nat.le_refl _
      · exact List.Forall₂.imp
          (fun a b h => chunkMatches_append q.buf (leadOf c.clause c.expr) a b h) hF₂
  · simp only
    have hflat : q.args = (m₁.map Entry.args).flatten ++ (m₂.map Entry.args).flatten := by
      rw [hargs, List.map_append, List.flatten_append]
    have hsum : sumArg l₂ = ((m₂.map Entry.args).flatten).length := sumArg_of_forall₂ hF₂
    have hlen : q.args.length - sumArg l₂ = ((m₁.map Entry.args).flatten).length := by
      rw [hflat, hsum, List.length_append]
      omega
    rw [hlen, hflat, insertAt_boundary]
    simp only [List.map_append, List.flatten_append, List.map_cons, List.flatten_cons,
      List.append_assoc]
    rfl

theorem sorted_entries_partition {α : Type} (m : List (Entry α)) (p : Nat)
    (hs : List.Pairwise (fun e f : Entry α => e.pos < f.pos) m)
    (hp : ∀ e ∈ m, e.pos ≠ p) :
    ∃ m₁ m₂, m = m₁ ++ m₂ ∧ (∀ e ∈ m₁, e.pos < p) ∧ (∀ e ∈ m₂, p < e.pos) := by
  induction m with
  | nil => exact ⟨[], [], rfl, fun e he => absurd he (List.not_mem_nil e), fun e he => absurd he (List.not_mem_nil e)⟩
  | cons e t ih =>
    have hhead : ∀ x ∈ t, e.pos < x.pos := (List.pairwise_cons.mp hs).1
    have hst : List.Pairwise (fun e f : Entry α => e.pos < f.pos) t := (List.pairwise_cons.mp hs).2
    rcases Nat.lt_or_ge e.pos p with hlt | hge
    · obtain ⟨m₁, m₂, heq, hm₁, hm₂⟩ := ih hst (fun x hx => hp x (List.mem_cons_of_mem e hx))
      refine ⟨e :: m₁, m₂, by rw [heq, List.cons_append], ?_, hm₂⟩
      intro x hx
      rcases List.mem_cons.mp hx with rfl | hx'
      · exact hlt
      · exact hm₁ x hx'
    · have hgt : p < e.pos := by
        have := hp e (List.mem_cons_self e t)
        omega
      refine ⟨[], e :: t, rfl, fun x hx => absurd hx (List.not_mem_nil x), ?_⟩
      intro x hx
      rcases List.mem_cons.mp hx with rfl | hx'
      · exact hgt
      · exact Nat.lt_trans hgt (hhead x hx')

theorem sorted_entries_insert {α : Type} (m₁ m₂ : List (Entry α)) (e : Entry α)
    (hs : List.Pairwise (fun x y : Entry α => x.pos < y.pos) (m₁ ++ m₂))
    (h₁ : ∀ x ∈ m₁, x.pos < e.pos) (h₂ : ∀ x ∈ m₂, e.pos < x.pos) :
    List.Pairwise (fun x y : Entry α => x.pos < y.pos) (m₁ ++ e :: m₂) := by
  rw [List.pairwise_append] at hs ⊢
  obtain ⟨hsa, hsb, hcross⟩ := hs
  refine ⟨hsa, List.pairwise_cons.mpr ⟨h₂, hsb⟩, ?_⟩
  intro a ha b hb
  rcases List.mem_cons.mp hb with rfl | hb'
  · exact h₁ a ha
  · exact hcross a ha b hb'

theorem entries_sorted_perm_eq {α : Type} (m m' : List (Entry α)) (hp : m.Perm m')
    (h1 : List.Pairwise (fun x y : Entry α => x.pos < y.pos) m)
    (h2 : List.Pairwise (fun x y : Entry α => x.pos < y.pos) m') : m = m' := by
  induction m generalizing m' with
  | nil => exact List.Perm.nil_eq hp
  | cons x t ih =>
    rcases m' with _ | ⟨y, t'⟩
    · exact absurd (List.Perm.nil_eq hp.symm).symm (List.cons_ne_nil x t)
    · by_cases hxy : x = y
      · subst hxy
        have ht : t.Perm t' := hp.cons_inv
        rw [ih t' ht (List.pairwise_cons.mp h1).2 (List.pairwise_cons.mp h2).2]
      · exfalso
        have hx : x ∈ y :: t' := hp.mem_iff.mp (List.mem_cons_self x t)
        have hxt : x ∈ t' := by
          rcases List.mem_cons.mp hx with h | h
          · exact absurd h hxy
          · exact h
        have hy : y ∈ x :: t := hp.symm.mem_iff.mp (List.mem_cons_self y t')
        have hyt : y ∈ t := by
          rcases List.mem_cons.mp hy with h | h
          · exact absurd h.symm hxy
          · exact h
        have hx_lt : x.pos < y.pos := (List.pairwise_cons.mp h1).1 y hyt
        have hy_lt : y.pos < x.pos := (List.pairwise_cons.mp h2).1 x hxt
        omega

/-- Applying any sequence of addChunk calls whose positions are fresh
and pairwise distinct yields a statement realizing a
position-sorted arrangement of the corresponding entries. -/
theorem applyCalls_models {α : Type} (cs : List (CallSpec α)) :
    ∀ (q : Stmt α) (m : List (Entry α)),
    StmtModels q m →
    List.Pairwise (fun x y : Entry α => x.pos < y.pos) m →
    (∀ e ∈ m, ∀ c ∈ cs, e.pos ≠ c.pos) →
    (cs.map CallSpec.pos).Nodup →
    ∃ m', StmtModels (applyCalls q cs) m' ∧
      List.Pairwise (fun x y : Entry α => x.pos < y.pos) m' ∧
      m'.Perm (m ++ cs.map entryOf) := by
  induction cs with
  | nil =>
    intro q m hM hs hdisj hnd
    exact ⟨m, hM, hs, by simp⟩
  | cons c cs ih =>
    intro q m hM hs hdisj hnd
    have hne : ∀ e ∈ m, e.pos ≠ c.pos := fun e he => hdisj e he c (List.mem_cons_self c cs)
    obtain ⟨m₁, m₂, heq, h₁, h₂⟩ := sorted_entries_partition m c.pos hs hne
    subst heq
    have hM' := addChunk_models q c m₁ m₂ hM h₁ h₂
    have hs' := sorted_entries_insert m₁ m₂ (entryOf c) hs h₁ h₂
    have hndc : c.pos ∉ cs.map CallSpec.pos ∧ (cs.map CallSpec.pos).Nodup := by
      rw [List.map_cons, List.nodup_cons] at hnd
      exact hnd
    have hdisj' : ∀ e ∈ m₁ ++ entryOf c :: m₂, ∀ c' ∈ cs, e.pos ≠ c'.pos := by
      intro e he c' hc'
      rcases List.mem_append.mp he with he1 | he2
      · exact hdisj e (List.mem_append_left m₂ he1) c' (List.mem_cons_of_mem c hc')
      · rcases List.mem_cons.mp he2 with rfl | he2'
        · intro hcontra
          exact hndc.1 (by
            rw [show (entryOf c).pos = c.pos from rfl] at hcontra
            rw [hcontra]
            exact List.mem_map_of_mem CallSpec.pos hc')
        · exact hdisj e (List.mem_append_right m₁ he2') c' (List.mem_cons_of_mem c hc')
    obtain ⟨m', hM'', hs'', hperm⟩ :=
      ih (q.addChunk c.pos c.clause c.expr c.args c.sep).1 (m₁ ++ entryOf c :: m₂)
        hM' hs' hdisj' hndc.2
    refine ⟨m', hM'', hs'', ?_⟩
    have step1 : (m₁ ++ entryOf c :: m₂).Perm (entryOf c :: (m₁ ++ m₂)) := List.perm_middle
    have step2 : ((m₁ ++ entryOf c :: m₂) ++ cs.map entryOf).Perm
        (entryOf c :: ((m₁ ++ m₂) ++ cs.map entryOf)) := by
      have hstep := step1.append_right (cs.map entryOf)
      simp only [List.cons_append] at hstep
      exact hstep
    have step3 : ((m₁ ++ m₂) ++ entryOf c :: cs.map entryOf).Perm
        (entryOf c :: ((m₁ ++ m₂) ++ cs.map entryOf)) := List.perm_middle
    exact hperm.trans (step2.trans step3.symm)

theorem addChunk_dialect {α : Type} (q : Stmt α) (p : Nat) (clause expr : Str)
    (args : List α) (sep : Str) :
    (q.addChunk p clause expr args sep).1.dialect = q.dialect := by
  unfold Stmt.addChunk
  rcases hscan : scan p q.chunks with ⟨i, t⟩ | ⟨i, t⟩ | t <;>
    simp only [hscan]
  split
  · rfl
  · split
    · rfl
    · rfl

theorem applyCalls_dialect {α : Type} (cs : List (CallSpec α)) (q : Stmt α) :
    (applyCalls q cs).dialect = q.dialect := by
  induction cs generalizing q with
  | nil => rfl
  | cons c cs ih =>
    show (applyCalls (q.addChunk c.pos c.clause c.expr c.args c.sep).1 cs).dialect = q.dialect
    rw [ih, addChunk_dialect]

/-- C1: order independence of rendering. For any two permutations of
the same set of fragment-adding calls (with pairwise distinct clause
positions) applied to one fresh statement, the rendered text is
identical — the clauses land in the fixed canonical position order
regardless of call order; in particular, Select("id"), Where("x>?", 1),
From("t") and From("t"), Select("id"), Where("x>?", 1) both render
"SELECT id FROM t WHERE x>?". -/
theorem sqlf_C1 :
    (∀ (α : Type) (d : Dialect) (cs cs' : List (CallSpec α)),
      cs.Perm cs' → (cs.map CallSpec.pos).Nodup →
      buildSQL (applyCalls (newStmt α d) cs) = buildSQL (applyCalls (newStmt α d) cs')) ∧
    (Stmt.String ((((newStmt Nat Dialect.NoDialect).Select "id".toList []).Where
        "x>?".toList [1]).From "t".toList [])).2 = "SELECT id FROM t WHERE x>?".toList ∧
    (Stmt.String ((((newStmt Nat Dialect.NoDialect).From "t".toList []).Select
        "id".toList []).Where "x>?".toList [1])).2 = "SELECT id FROM t WHERE x>?".toList := by
  refine ⟨?_, by decide, by decide⟩
  intro α d cs cs' hperm hnd
  have hnd' : (cs'.map CallSpec.pos).Nodup := ((hperm.map CallSpec.pos).nodup_iff).mp hnd
  have hM0 : StmtModels (newStmt α d) [] := ⟨List.Forall₂.nil, rfl⟩
  have hdisj : ∀ e ∈ ([] : List (Entry α)), ∀ c ∈ cs, e.pos ≠ c.pos :=
    fun e he => absurd he (List.not_mem_nil e)
  have hdisj' : ∀ e ∈ ([] : List (Entry α)), ∀ c ∈ cs', e.pos ≠ c.pos :=
    fun e he => absurd he (List.not_mem_nil e)
  obtain ⟨m, hM, hs, hpm⟩ := applyCalls_models cs (newStmt α d) [] hM0 List.Pairwise.nil hdisj hnd
  obtain ⟨m', hM', hs', hpm'⟩ :=
    applyCalls_models cs' (newStmt α d) [] hM0 List.Pairwise.nil hdisj' hnd'
  have hmm : m.Perm m' := by
    refine (hpm.trans ?_).trans hpm'.symm
    simpa using hperm.map entryOf
  have heq : m = m' := entries_sorted_perm_eq m m' hmm hs hs'
  rw [buildSQL_models (applyCalls (newStmt α d) cs) m hM.1,
      buildSQL_models (applyCalls (newStmt α d) cs') m' hM'.1,
      applyCalls_dialect, applyCalls_dialect, heq]

/-- Witness for sqlf_C1: a concrete three-call sequence and a
permutation of it, with distinct positions, rendering identically. -/
theorem sqlf_C1_witness :
    buildSQL (applyCalls (newStmt Nat Dialect.NoDialect)
      [⟨posSelect, "SELECT".toList, "id".toList, [], ", ".toList⟩,
       ⟨posWhere, "WHERE".toList, "x>?".toList, [1], " AND ".toList⟩,
       ⟨posFrom, "FROM".toList, "t".toList, [], ", ".toList⟩]) =
    buildSQL (applyCalls (newStmt Nat Dialect.NoDialect)
      [⟨posFrom, "FROM".toList, "t".toList, [], ", ".toList⟩,
       ⟨posSelect, "SELECT".toList, "id".toList, [], ", ".toList⟩,
       ⟨posWhere, "WHERE".toList, "x>?".toList, [1], " AND ".toList⟩]) := by
  exact sqlf_C1.1 Nat Dialect.NoDialect _ _ (by decide) (by decide)

theorem sorted_chunks_partition (cs : List Chunk) (p : Nat)
    (hs : List.Pairwise (fun a b : Chunk => a.pos ≤ b.pos) cs) :
    ∃ D C, cs = D ++ C ∧ (∀ c ∈ D, c.pos ≤ p) ∧ (∀ c ∈ C, p < c.pos) := by
  induction cs with
  | nil =>
    exact ⟨[], [], rfl, fun c hc => absurd hc (List.not_mem_nil c),
      fun c hc => absurd hc (List.not_mem_nil c)⟩
  | cons c t ih =>
    have hhead : ∀ x ∈ t, c.pos ≤ x.pos := (List.pairwise_cons.mp hs).1
    have hst := (List.pairwise_cons.mp hs).2
    rcases le_or_lt c.pos p with hle | hgt
    · obtain ⟨D, C, heq, hD, hC⟩ := ih hst
      refine ⟨c :: D, C, by rw [heq, List.cons_append], ?_, hC⟩
      intro x hx
      rcases List.mem_cons.mp hx with rfl | hx'
      · exact hle
      · exact hD x hx'
    · refine ⟨[], c :: t, rfl, fun x hx => absurd hx (List.not_mem_nil x), ?_⟩
      intro x hx
      rcases List.mem_cons.mp hx with rfl | hx'
      · exact hgt
      · exact Nat.lt_of_lt_of_le hgt (hhead x hx')

/-- Under a sorted chunk sequence, the strictly-greater filter picks
out exactly the partition tail. -/
theorem filter_gt_of_partition (D C : List Chunk) (p : Nat)
    (hD : ∀ c ∈ D, c.pos ≤ p) (hC : ∀ c ∈ C, p < c.pos) :
    (D ++ C).filter (fun c => decide (p < c.pos)) = C := by
  rw [List.filter_append]
  have h1 : D.filter (fun c => decide (p < c.pos)) = [] := by
    rw [List.filter_eq_nil_iff]
    intro a ha
    simp only [decide_eq_true_eq]
    have := hD a ha
    omega
  have h2 : C.filter (fun c => decide (p < c.pos)) = C := by
    rw [List.filter_eq_self]
    intro a ha
    simp only [decide_eq_true_eq]
    exact hC a ha
  rw [h1, h2, List.nil_append]

/-- The argument list after any non-degenerate addChunk call: the new
arguments are spliced in at the total length minus the argument count
of the chunks with strictly greater position. -/
theorem addChunk_args {α : Type} (q : Stmt α) (p : Nat) (clause expr : Str)
    (args : List α) (sep : Str)
    (hs : ChunksSorted q) (hexpr : expr ≠ []) :
    (q.addChunk p clause expr args sep).1.args =
      insertAt q.args args
        (q.args.length - sumArg (q.chunks.filter (fun c => decide (p < c.pos)))) := by
  obtain ⟨D, C, heq, hD, hC⟩ := sorted_chunks_partition q.chunks p hs
  have hfilter : q.chunks.filter (fun c => decide (p < c.pos)) = C := by
    rw [heq]
    exact filter_gt_of_partition D C p hD hC
  rw [hfilter]
  rcases q with ⟨d, pos0, chunks0, buf0, sql0, args0, dest0⟩
  simp only at heq hD hC ⊢
  subst heq
  rcases List.eq_nil_or_concat D with hDnil | ⟨D', b, hDsplit⟩
  · subst hDnil
    have hscan : scan p ([] ++ C) = ScanOut.exhausted (sumArg C) := by
      rw [List.nil_append]
      exact scan_exhausted p C hC
    unfold Stmt.addChunk
    simp only [hscan]
    by_cases hargs : 0 < args.length
    · rw [if_pos hargs]
    · rw [if_neg hargs, insertAt_zero_src args0 args _ (by omega)]
  · rw [List.concat_eq_append] at hDsplit
    subst hDsplit
    have hb : b.pos ≤ p := hD b (List.mem_append_right D' (List.mem_singleton.mpr rfl))
    have hshape : (D' ++ [b]) ++ C = D' ++ b :: C := by simp
    rcases Nat.lt_or_ge b.pos p with hblt | hbge
    · have hscan : scan p ((D' ++ [b]) ++ C) = ScanOut.below D'.length (sumArg C) := by
        rw [hshape]
        exact scan_below p D' C b hblt hC
      unfold Stmt.addChunk
      simp only [hscan]
      by_cases hargs : 0 < args.length
      · rw [if_pos hargs]
      · rw [if_neg hargs, insertAt_zero_src args0 args _ (by omega)]
    · have hbp : b.pos = p := by omega
      have hscan : scan p ((D' ++ [b]) ++ C) = ScanOut.found D'.length (sumArg C) := by
        rw [hshape]
        exact scan_found p D' C b hbp hC
      unfold Stmt.addChunk
      simp only [hscan]
      rw [if_neg hexpr]
      by_cases hhead : (((D' ++ [b]) ++ C).getD D'.length default).bufHigh = buf0.length
      · rw [if_pos hhead]
        by_cases hargs : 0 < args.length
        · rw [if_pos hargs]
        · rw [if_neg hargs, insertAt_zero_src args0 args _ (by omega)]
      · rw [if_neg hhead]
        by_cases hargs : 0 < args.length
        · rw [if_pos hargs]
        · rw [if_neg hargs, insertAt_zero_src args0 args _ (by omega)]

theorem addChunk_noop {α : Type} (q : Stmt α) (p : Nat) (clause expr : Str)
    (args : List α) (sep : Str) (i t : Nat)
    (hscan : scan p q.chunks = .found i t) (hexpr : expr = []) :
    q.addChunk p clause expr args sep = ({ q with pos := p }, i) := by
  unfold Stmt.addChunk
  simp only [hscan]
  rw [if_pos hexpr]

theorem forall₂_exists_left {α β : Type} {R : α → β → Prop} {l : List α} {m : List β}
    (h : List.Forall₂ R l m) {y : β} (hy : y ∈ m) : ∃ x ∈ l, R x y := by
  induction h with
  | nil => cases hy
  | @cons a b as bs hrel htail ih =>
    rcases List.mem_cons.mp hy with rfl | hy'
    · exact ⟨a, List.mem_cons_self a as, hrel⟩
    · obtain ⟨x, hx, hR⟩ := ih hy'
      exact ⟨x, List.mem_cons_of_mem a hx, hR⟩

theorem sumArg_of_blocks {α : Type} {blocks : List (List α)} {cs : List Chunk}
    (h : List.Forall₂ (fun (b : List α) (c : Chunk) => b.length = c.argLen) blocks cs) :
    sumArg cs = blocks.flatten.length := by
  induction h with
  | nil => rfl
  | @cons bb c bs cs hrel htail ih =>
    simp only [sumArg, List.map_cons, List.sum_cons, List.flatten_cons, List.length_append] at *
    omega

/-- Inserting a chunk between its lower and upper neighbours keeps the
sequence sorted. -/
theorem pairwise_le_insert (D C : List Chunk) (x : Chunk)
    (hP : List.Pairwise (fun a b : Chunk => a.pos ≤ b.pos) (D ++ C))
    (hD : ∀ c ∈ D, c.pos ≤ x.pos) (hC : ∀ c ∈ C, x.pos ≤ c.pos) :
    List.Pairwise (fun a b : Chunk => a.pos ≤ b.pos) (D ++ x :: C) := by
  rw [List.pairwise_append] at hP ⊢
  obtain ⟨hPa, hPb, hcross⟩ := hP
  refine ⟨hPa, List.pairwise_cons.mpr ⟨hC, hPb⟩, ?_⟩
  intro a ha b hb
  rcases List.mem_cons.mp hb with rfl | hb'
  · exact hD a ha
  · exact hcross a ha b hb'

/-- Every addChunk call keeps the chunk sequence sorted and keeps the
argument list decomposable into per-chunk blocks in chunk order. -/
theorem addChunk_preserves {α : Type} (q : Stmt α) (p : Nat) (clause expr : Str)
    (args : List α) (sep : Str) (hs : ChunksSorted q) (hal : ArgsAligned q) :
    ChunksSorted (q.addChunk p clause expr args sep).1 ∧
    ArgsAligned (q.addChunk p clause expr args sep).1 := by
  obtain ⟨blocks, hflat, hF⟩ := hal
  obtain ⟨D, C, heq, hD, hC⟩ := sorted_chunks_partition q.chunks p hs
  rcases List.eq_nil_or_concat D with hDnil | ⟨D', b, hDsplit⟩
  · -- no chunk of position at most p: plain insertion at the front
    subst hDnil
    rw [List.nil_append] at heq
    have hr := addChunk_insert q p clause expr args sep [] C heq hC (Or.inl rfl)
    rw [hr]
    constructor
    · show List.Pairwise _ ([] ++ _ :: C)
      apply pairwise_le_insert [] C _
        (by rw [List.nil_append, ← heq]; exact hs)
        (fun c hc => absurd hc (List.not_mem_nil c))
      intro c hc
      exact Nat.le_of_lt (hC c hc)
    · refine ⟨args :: blocks, ?_, ?_⟩
      · show insertAt q.args args (q.args.length - sumArg C) = _
        have hsum : sumArg C = blocks.flatten.length := by
          apply sumArg_of_blocks
          rw [← heq]
          exact hF
        have hb0 : insertAt blocks.flatten args 0 = args ++ blocks.flatten := by
          have h := insertAt_boundary ([] : List α) blocks.flatten args
          simpa using h
        rw [hflat, hsum, Nat.sub_self, hb0]
        simp
      · show List.Forall₂ _ (args :: blocks) ([] ++ _ :: C)
        rw [List.nil_append]
        refine List.Forall₂.cons rfl ?_
        rw [← heq]
        exact hF
  · rw [List.concat_eq_append] at hDsplit
    subst hDsplit
    have hshape : (D' ++ [b]) ++ C = D' ++ b :: C := by simp
    rw [hshape] at heq
    have hble : b.pos ≤ p := hD b (List.mem_append_right D' (List.mem_singleton.mpr rfl))
    have hD' : ∀ c ∈ D', c.pos ≤ p := fun c hc => hD c (List.mem_append_left [b] hc)
    -- split the blocks against the chunk partition
    have hFsplit : List.Forall₂ (fun (bl : List α) (c : Chunk) => bl.length = c.argLen)
        blocks (D' ++ b :: C) := by rw [← heq]; exact hF
    obtain ⟨B₁, B₂, hBsplit, hFB₁, hFB₂⟩ := forall₂_split hFsplit
    obtain ⟨bb, B₂', hbb, hFB₂', hB₂⟩ := List.forall₂_cons_right_iff.mp hFB₂
    subst hB₂
    subst hBsplit
    have hsumC : sumArg C = B₂'.flatten.length := sumArg_of_blocks hFB₂'
    have hargsdec : q.args = (B₁.flatten ++ bb) ++ B₂'.flatten := by
      rw [hflat]
      simp
    have hidx : q.args.length - sumArg C = (B₁.flatten ++ bb).length := by
      rw [hargsdec, hsumC]
      simp only [List.length_append]
      omega
    have hargsresult : insertAt q.args args (q.args.length - sumArg C) =
        B₁.flatten ++ bb ++ args ++ B₂'.flatten := by
      rw [hidx, hargsdec, insertAt_boundary]
    rcases lt_or_ge b.pos p with hblt | hbge
    · -- strictly smaller: plain insertion after b
      have hr := addChunk_insert q p clause expr args sep (D' ++ [b]) C
        (by rw [hshape]; exact heq) hC (Or.inr ⟨D', b, rfl, hblt⟩)
      rw [hr]
      constructor
      · show List.Pairwise _ ((D' ++ [b]) ++ _ :: C)
        apply pairwise_le_insert (D' ++ [b]) C _
          (by rw [hshape, ← heq]; exact hs) (fun c hc => hD c hc)
        intro c hc
        exact Nat.le_of_lt (hC c hc)
      · refine ⟨(B₁ ++ [bb]) ++ args :: B₂', ?_, ?_⟩
        · show insertAt q.args args (q.args.length - sumArg C) = _
          rw [hargsresult]
          simp
        · show List.Forall₂ _ _ ((D' ++ [b]) ++ _ :: C)
          apply forall₂_append_both
          · apply forall₂_append_both hFB₁
            exact List.Forall₂.cons hbb List.Forall₂.nil
          · exact List.Forall₂.cons rfl hFB₂'
    · -- equal position found
      have hbp : b.pos = p := by omega
      by_cases hexpr : expr = []
      · -- early return: nothing but the remembered position changes
        have hscan : scan p q.chunks = ScanOut.found D'.length (sumArg C) := by
          rw [heq]
          exact scan_found p D' C b hbp hC
        rw [addChunk_noop q p clause expr args sep D'.length (sumArg C) hscan hexpr]
        exact ⟨hs, ⟨B₁ ++ bb :: B₂', hflat, hF⟩⟩
      · by_cases hhead : b.bufHigh = q.buf.length
        · -- extend the found chunk in place
          have hr := addChunk_merge q p clause expr args sep D' C b heq hbp hC hhead hexpr
          rw [hr]
          constructor
          · show List.Pairwise _ (D' ++ _ :: C)
            have hsub : List.Pairwise (fun a b : Chunk => a.pos ≤ b.pos) (D' ++ C) := by
              have hsubl : (D' ++ C).Sublist (D' ++ b :: C) :=
                List.Sublist.append_left (List.sublist_cons_self b C) D'
              rw [← heq] at hsubl
              exact hs.sublist hsubl
            apply pairwise_le_insert D' C _ hsub
            · intro c hc
              show c.pos ≤ b.pos
              have hP : List.Pairwise (fun a b : Chunk => a.pos ≤ b.pos) (D' ++ b :: C) := by
                rw [← heq]
                exact hs
              rw [List.pairwise_append] at hP
              exact hP.2.2 c hc b (List.mem_cons_self b C)
            · intro c hc
              show b.pos ≤ c.pos
              rw [hbp]
              exact Nat.le_of_lt (hC c hc)
          · refine ⟨B₁ ++ (bb ++ args) :: B₂', ?_, ?_⟩
            · show insertAt q.args args (q.args.length - sumArg C) = _
              rw [hargsresult]
              simp
            · show List.Forall₂ _ _ (D' ++ _ :: C)
              apply forall₂_append_both hFB₁
              apply List.Forall₂.cons _ hFB₂'
              show (bb ++ args).length = b.argLen + args.length
              rw [List.length_append, hbb]
        · -- same position, span not at the write head: fresh chunk after b
          have hr := addChunk_newSame q p clause expr args sep D' C b heq hbp hC hhead hexpr
          rw [hr]
          constructor
          · show List.Pairwise _ (D' ++ b :: _ :: C)
            have hview : D' ++ b :: (⟨p, q.buf.length,
                (q.buf ++ (if b.hasExpr then sep else [' ']) ++ expr).length,
                true, args.length⟩ : Chunk) :: C =
                (D' ++ [b]) ++ (⟨p, q.buf.length,
                (q.buf ++ (if b.hasExpr then sep else [' ']) ++ expr).length,
                true, args.length⟩ : Chunk) :: C := by simp
            rw [hview]
            apply pairwise_le_insert (D' ++ [b]) C _
              (by rw [hshape, ← heq]; exact hs)
            · intro c hc
              exact hD c hc
            · intro c hc
              exact Nat.le_of_lt (hC c hc)
          · refine ⟨(B₁ ++ [bb]) ++ args :: B₂', ?_, ?_⟩
            · show insertAt q.args args (q.args.length - sumArg C) = _
              rw [hargsresult]
              simp
            · show List.Forall₂ _ _ (D' ++ b :: _ :: C)
              have hview : D' ++ b :: (⟨p, q.buf.length,
                  (q.buf ++ (if b.hasExpr then sep else [' ']) ++ expr).length,
                  true, args.length⟩ : Chunk) :: C =
                  (D' ++ [b]) ++ (⟨p, q.buf.length,
                  (q.buf ++ (if b.hasExpr then sep else [' ']) ++ expr).length,
                  true, args.length⟩ : Chunk) :: C := by simp
              rw [hview]
              apply forall₂_append_both
              · apply forall₂_append_both hFB₁
                exact List.Forall₂.cons hbb List.Forall₂.nil
              · exact List.Forall₂.cons rfl hFB₂'

/-- C3: positional-placeholder renumbering. writePg maps an escaped
placeholder to a literal question mark without touching the counter,
maps an unescaped placeholder to a dollar sign followed by the current
counter value and increments it, the counter leaves every fragment
advanced by exactly its unescaped placeholder count (so it runs
monotonically, statement-scoped, across chunks in render order — each
render step can only grow it), and concretely Where("a=?",1) then
Where("b=?",2) under PostgreSQL renders "WHERE a=$1 AND b=$2" while an
escaped placeholder renders as a literal without consuming a number. -/
theorem sqlf_C3 :
    (∀ (a : Nat) (r : Str),
      writePg a ('\\' :: '?' :: r) = ('?' :: (writePg a r).1, (writePg a r).2)) ∧
    (∀ (a : Nat) (r : Str),
      writePg a ('?' :: r) =
        ('$' :: (Nat.repr a).toList ++ (writePg (a + 1) r).1, (writePg (a + 1) r).2)) ∧
    (∀ (a : Nat) (s : Str), (writePg a s).2 = a + qCount s) ∧
    (∀ (d : Dialect) (buf : Str) (st : RenderSt) (c : Chunk),
      st.argNo ≤ (renderStep d buf st c).argNo) ∧
    (Stmt.String (((newStmt Nat Dialect.PostgreSQL).Where "a=?".toList [1]).Where
      "b=?".toList [2])).2 = "WHERE a=$1 AND b=$2".toList ∧
    (Stmt.String ((newStmt Nat Dialect.PostgreSQL).Where
      "x \\?& y=?".toList [7])).2 = "WHERE x ?& y=$1".toList := by
  refine ⟨fun a r => rfl, fun a r => rfl, writePg_snd, ?_, by decide, by decide⟩
  intro d buf st c
  show st.argNo ≤ (if 0 < c.argLen ∧ d = Dialect.PostgreSQL
      then writePg st.argNo (c.span buf) else (c.span buf, st.argNo)).2
  by_cases h : 0 < c.argLen ∧ d = Dialect.PostgreSQL
  · rw [if_pos h]
    exact writePg_mono st.argNo (c.span buf)
  · rw [if_neg h]

/-- C6: render memoization and invalidation. A statement with a cached
text serves it verbatim; rendering twice without mutation returns the
identical pair (the second call served from the cache the first call
installed); after rendering, the cache holds exactly the returned
text; and every addChunk call either drops the cached text or leaves
the chunk sequence, buffer, argument list and cache all untouched (the
early return for an empty expression on an existing clause), so a
cached text never survives a change of the chunk sequence. -/
theorem sqlf_C6 :
    (∀ (α : Type) (q : Stmt α) (s : Str), (Stmt.String { q with sql := some s }).2 = s) ∧
    (∀ (α : Type) (q : Stmt α), Stmt.String (Stmt.String q).1 = Stmt.String q) ∧
    (∀ (α : Type) (q : Stmt α), (Stmt.String q).1.sql = some (Stmt.String q).2) ∧
    (∀ (α : Type) (q : Stmt α) (p : Nat) (clause expr : Str) (args : List α) (sep : Str),
      ((q.addChunk p clause expr args sep).1.sql = none) ∨
      ((q.addChunk p clause expr args sep).1.chunks = q.chunks ∧
       (q.addChunk p clause expr args sep).1.buf = q.buf ∧
       (q.addChunk p clause expr args sep).1.args = q.args ∧
       (q.addChunk p clause expr args sep).1.sql = q.sql)) := by
  refine ⟨fun α q s => rfl, ?_, ?_, ?_⟩
  · intro α q
    rcases hsql : q.sql with _ | s <;> simp [Stmt.String, hsql]
  · intro α q
    rcases hsql : q.sql with _ | s <;> simp [Stmt.String, hsql]
  · intro α q p clause expr args sep
    unfold Stmt.addChunk
    rcases hscan : scan p q.chunks with ⟨i, t⟩ | ⟨i, t⟩ | t <;> simp only [hscan]
    · by_cases hexpr : expr = []
      · rw [if_pos hexpr]
        exact Or.inr ⟨rfl, rfl, rfl, rfl⟩
      · rw [if_neg hexpr]
        by_cases hhead : ((q.chunks.getD i default).bufHigh = q.buf.length)
        · rw [if_pos hhead]
          exact Or.inl rfl
        · rw [if_neg hhead]
          exact Or.inl rfl
    · exact Or.inl trivial
    · exact Or.inl trivial

/-- C10: placeholders in argument-less fragments are never rewritten.
Under the PostgreSQL dialect a rendering step for a chunk with a zero
recorded argument count copies its span verbatim (keeping any bare or
escaped placeholder bytes) and does not advance the statement-wide
counter; concretely a SELECT fragment holding an escaped placeholder
and no arguments keeps its backslash and question mark while the next
argument-carrying chunk is numbered from 1. -/
theorem sqlf_C10 :
    (∀ (buf : Str) (st : RenderSt) (c : Chunk), c.argLen = 0 →
      renderStep Dialect.PostgreSQL buf st c =
        { out := (if ¬ st.first ∧ st.pos < c.pos then st.out ++ [' '] else st.out) ++ c.span buf,
          argNo := st.argNo, pos := c.pos, first := false }) ∧
    (Stmt.String ((((newStmt Nat Dialect.PostgreSQL).Select "\\?".toList []).From
      "t".toList []).Where "x=?".toList [5])).2 = "SELECT \\? FROM t WHERE x=$1".toList := by
  refine ⟨?_, by decide⟩
  intro buf st c h
  simp [renderStep, h]

/-- Witness for sqlf_C10: a chunk with no recorded arguments and a
placeholder in its span passes through a PostgreSQL render step
verbatim with the counter untouched. -/
theorem sqlf_C10_witness :
    renderStep Dialect.PostgreSQL "a=?".toList ⟨[], 1, 0, true⟩ ⟨900, 0, 3, true, 0⟩ =
      { out := "a=?".toList, argNo := 1, pos := 900, first := false } := by
  have h := sqlf_C10.1 "a=?".toList ⟨[], 1, 0, true⟩ ⟨900, 0, 3, true, 0⟩ (by decide)
  rw [h]
  decide

theorem insertAt_nil_dest {α : Type} (src : List α) : insertAt [] src 0 = src := by
  have h := insertAt_boundary ([] : List α) ([] : List α) src
  simpa using h

/-- C4: merge, not duplicate. When the scan finds a chunk of the same
position whose span ends at the buffer write head, addChunk extends
that chunk in place: the first written text is the clause separator if
the chunk already holds an expression (a single space otherwise), then
the expression; the span and argument count grow, and no new chunk is
created — so two Where calls render one WHERE keyword with the
conditions joined by AND. -/
theorem sqlf_C4 :
    (∀ (α : Type) (q : Stmt α) (p : Nat) (clause expr : Str) (args : List α) (sep : Str)
        (A C : List Chunk) (b : Chunk),
      q.chunks = A ++ b :: C → b.pos = p → (∀ c ∈ C, p < c.pos) →
      b.bufHigh = q.buf.length → expr ≠ [] →
      q.addChunk p clause expr args sep =
        ({ q with
            pos := p
            buf := q.buf ++ (if b.hasExpr then sep else [' ']) ++ expr
            chunks := A ++ { b with
                argLen := b.argLen + args.length
                bufHigh := (q.buf ++ (if b.hasExpr then sep else [' ']) ++ expr).length
                hasExpr := true } :: C
            args := insertAt q.args args (q.args.length - sumArg C)
            sql := none }, A.length)) ∧
    (Stmt.String (((newStmt Nat Dialect.NoDialect).Where "a=1".toList []).Where
      "b=2".toList [])).2 = "WHERE a=1 AND b=2".toList ∧
    (((newStmt Nat Dialect.NoDialect).Where "a=1".toList []).Where
      "b=2".toList []).chunks.length = 1 := by
  exact ⟨fun α q p clause expr args sep A C b h1 h2 h3 h4 h5 =>
    addChunk_merge q p clause expr args sep A C b h1 h2 h3 h4 h5, by decide, by decide⟩

/-- Witness for sqlf_C4: extending the single WHERE chunk of a
concrete statement in place. -/
theorem sqlf_C4_witness :
    ((newStmt Nat Dialect.NoDialect).Where "a=1".toList []).addChunk posWhere
        "WHERE".toList "b=2".toList [] " AND ".toList =
      ({ (newStmt Nat Dialect.NoDialect).Where "a=1".toList [] with
          pos := posWhere
          buf := ((newStmt Nat Dialect.NoDialect).Where "a=1".toList []).buf ++
            (if (⟨posWhere, 0, 9, true, 0⟩ : Chunk).hasExpr then " AND ".toList else [' ']) ++
            "b=2".toList
          chunks := [] ++ { (⟨posWhere, 0, 9, true, 0⟩ : Chunk) with
              argLen := (⟨posWhere, 0, 9, true, 0⟩ : Chunk).argLen + ([] : List Nat).length
              bufHigh := (((newStmt Nat Dialect.NoDialect).Where "a=1".toList []).buf ++
                (if (⟨posWhere, 0, 9, true, 0⟩ : Chunk).hasExpr then " AND ".toList else [' ']) ++
                "b=2".toList).length
              hasExpr := true } :: []
          args := insertAt ((newStmt Nat Dialect.NoDialect).Where "a=1".toList []).args []
            (((newStmt Nat Dialect.NoDialect).Where "a=1".toList []).args.length - sumArg [])
          sql := none }, ([] : List Chunk).length) := by
  exact sqlf_C4.1 Nat ((newStmt Nat Dialect.NoDialect).Where "a=1".toList [])
    posWhere "WHERE".toList "b=2".toList [] " AND ".toList [] [] ⟨posWhere, 0, 9, true, 0⟩
    (by decide) (by decide) (fun c hc => absurd hc (List.not_mem_nil c)) (by decide) (by decide)

/-- C7: clone independence. Clone produces a statement whose chunk
list, buffer, argument list, scan-target list, dialect and cached text
all equal the original's (the remembered expression position is reset),
so its rendered text and accessor results coincide with the
original's; the copies are built structurally (fresh lists), so under
the value semantics of this embedding no later mutation of one value
can change the other. -/
theorem sqlf_C7 :
    (∀ (α : Type) (q : Stmt α), Stmt.Clone q = { q with pos := 0 }) ∧
    (∀ (α : Type) (q : Stmt α),
      (Stmt.Clone q).Args = q.Args ∧
      (Stmt.Clone q).Dest = q.Dest ∧
      buildSQL (Stmt.Clone q) = buildSQL q ∧
      (Stmt.String (Stmt.Clone q)).2 = (Stmt.String q).2) := by
  have hclone : ∀ (α : Type) (q : Stmt α), Stmt.Clone q = { q with pos := 0 } := by
    intro α q
    unfold Stmt.Clone newStmt
    simp only [List.nil_append, insertAt_nil_dest]
  refine ⟨hclone, ?_⟩
  intro α q
  rw [hclone]
  refine ⟨rfl, rfl, rfl, ?_⟩
  show (Stmt.String { q with pos := 0 }).2 = (Stmt.String q).2
  rcases hsql : q.sql with _ | s <;> simp [Stmt.String, hsql, buildSQL]

/-- Counterexample to C9 as stated: rendering does not consult the
Dialect's shared cache. With the cache seeded for precisely the raw
buffer bytes of a concrete statement, the claimed cache-serving render
returns the seeded text while the actual Stmt.String returns the text
derived from the chunks. -/
theorem sqlf_C9_cex :
    claimRenderViaDialectCache
        (putCachedSQL ([] : sqlCache)
          ((newStmt Nat Dialect.PostgreSQL).Where "a=?".toList [1]).buf "BOGUS".toList)
        ((newStmt Nat Dialect.PostgreSQL).Where "a=?".toList [1]) ≠
      (Stmt.String ((newStmt Nat Dialect.PostgreSQL).Where "a=?".toList [1])).2 ∧
    (Stmt.String ((newStmt Nat Dialect.PostgreSQL).Where "a=?".toList [1])).2 =
      "WHERE a=$1".toList := by decide

/-- C9 amended: the Dialect carries a render-cache mapping keyed by
the exact raw buffer byte sequence (not a derived hash): putCachedSQL
stores under the raw bytes and getCachedSQL retrieves exactly on byte
equality, and ClearCache empties the mapping. However no render path
consults it — Stmt.String is served from the per-statement cached text
or derived from the chunks, independent of any dialect cache state. -/
theorem sqlf_C9 :
    (∀ (c : sqlCache) (key val key2 : Str),
      getCachedSQL (putCachedSQL c key val) key2 =
        if key2 = key then some val else getCachedSQL c key2) ∧
    (∀ (c : sqlCache) (key : Str), getCachedSQL (ClearCache c) key = none) ∧
    (∀ (α : Type) (q : Stmt α),
      (Stmt.String q).2 = (match q.sql with | some s => s | none => buildSQL q)) := by
  refine ⟨?_, fun c key => rfl, ?_⟩
  · intro c key val key2
    by_cases h : key2 = key
    · subst h
      simp [getCachedSQL, putCachedSQL, List.find?]
    · rw [if_neg h]
      have hne : ¬ (key = key2) := fun hc => h hc.symm
      simp [getCachedSQL, putCachedSQL, List.find?, hne]
  · intro α q
    rcases hsql : q.sql with _ | s <;> simp [Stmt.String, hsql]

theorem nilify_zero {α : Type} (store : List (Option α)) : nilify store 0 = store := by
  simp [nilify]

theorem nilify_nil {α : Type} (n : Nat) : nilify ([] : List (Option α)) n = [] := by
  simp [nilify]

theorem nilify_cons {α : Type} (x : Option α) (rest : List (Option α)) (n : Nat) :
    nilify (x :: rest) (n + 1) = none :: nilify rest n := by
  simp [nilify]

theorem nilify_getD_lt {α : Type} (store : List (Option α)) (n i : Nat) (h : i < n) :
    (nilify store n).getD i none = none := by
  induction store generalizing n i with
  | nil => simp [nilify_nil]
  | cons x rest ih =>
    rcases n with _ | n
    · omega
    · rw [nilify_cons]
      rcases i with _ | i
      · rfl
      · simp only [List.getD_cons_succ]
        exact ih n i (by omega)

theorem nilify_getD_ge {α : Type} (store : List (Option α)) (n i : Nat) (h : n ≤ i) :
    (nilify store n).getD i none = store.getD i none := by
  induction store generalizing n i with
  | nil => simp [nilify_nil]
  | cons x rest ih =>
    rcases n with _ | n
    · rw [nilify_zero]
    · rw [nilify_cons]
      rcases i with _ | i
      · omega
      · simp only [List.getD_cons_succ]
        exact ih n i (by omega)

/-- C8: release hygiene. reuseStmt empties the chunk slice while
retaining its backing storage, zeroes the argument and scan-target
slice lengths after setting each live entry to nil (so the entries up
to the old length hold no references), drops the fragment buffer and
the cached rendered text; and if the slice obeyed the invariant that
entries beyond the length are already nil, then after release every
entry of the backing store is nil, so no caller value stays
reachable. -/
theorem sqlf_C8 :
    ∀ (α : Type) (q : PoolStmt α),
      (reuseStmt q).chunksLen = 0 ∧
      (reuseStmt q).chunksStore = q.chunksStore ∧
      (reuseStmt q).args.len = 0 ∧
      (reuseStmt q).dest.len = 0 ∧
      (reuseStmt q).buf = none ∧
      (reuseStmt q).sql = none ∧
      (∀ i, i < q.args.len → (reuseStmt q).args.store.getD i none = none) ∧
      (∀ i, i < q.dest.len → (reuseStmt q).dest.store.getD i none = none) ∧
      ((∀ i, q.args.len ≤ i → q.args.store.getD i none = none) →
        ∀ i, (reuseStmt q).args.store.getD i none = none) ∧
      ((∀ i, q.dest.len ≤ i → q.dest.store.getD i none = none) →
        ∀ i, (reuseStmt q).dest.store.getD i none = none) := by
  intro α q
  have hlen : ∀ s : GoSlice α, (GoSlice.clear s).len = 0 := by
    intro s
    unfold GoSlice.clear
    by_cases h : 0 < s.len
    · rw [if_pos h]
    · rw [if_neg h]
      omega
  have hlt : ∀ (s : GoSlice α) (i : Nat), i < s.len →
      (GoSlice.clear s).store.getD i none = none := by
    intro s i hi
    unfold GoSlice.clear
    rw [if_pos (by omega)]
    exact nilify_getD_lt s.store s.len i hi
  have hall : ∀ s : GoSlice α, (∀ i, s.len ≤ i → s.store.getD i none = none) →
      ∀ i, (GoSlice.clear s).store.getD i none = none := by
    intro s hs i
    unfold GoSlice.clear
    by_cases h : 0 < s.len
    · rw [if_pos h]
      rcases Nat.lt_or_ge i s.len with hlt2 | hge2
      · exact nilify_getD_lt s.store s.len i hlt2
      · rw [nilify_getD_ge s.store s.len i hge2]
        exact hs i hge2
    · rw [if_neg h]
      exact hs i (by omega)
  exact ⟨rfl, rfl, hlen q.args, hlen q.dest, rfl, rfl,
    fun i hi => hlt q.args i hi, fun i hi => hlt q.dest i hi,
    fun hs i => hall q.args hs i, fun hs i => hall q.dest hs i⟩

/-- Witness for sqlf_C8: releasing a concrete pooled statement with
one live argument entry and one live scan target nils every stored
entry and zeroes every length while keeping the chunk storage. -/
theorem sqlf_C8_witness :
    (reuseStmt (⟨[⟨900, 0, 3, true, 1⟩], 1,
        ⟨[some 5, none], 1⟩, ⟨[some 7], 1⟩,
        some "b".toList, some "s".toList⟩ : PoolStmt Nat)).args.store.getD 0 none = none ∧
    (reuseStmt (⟨[⟨900, 0, 3, true, 1⟩], 1,
        ⟨[some 5, none], 1⟩, ⟨[some 7], 1⟩,
        some "b".toList, some "s".toList⟩ : PoolStmt Nat)).args.store.getD 1 none = none ∧
    (reuseStmt (⟨[⟨900, 0, 3, true, 1⟩], 1,
        ⟨[some 5, none], 1⟩, ⟨[some 7], 1⟩,
        some "b".toList, some "s".toList⟩ : PoolStmt Nat)).dest.store.getD 0 none = none ∧
    (reuseStmt (⟨[⟨900, 0, 3, true, 1⟩], 1,
        ⟨[some 5, none], 1⟩, ⟨[some 7], 1⟩,
        some "b".toList, some "s".toList⟩ : PoolStmt Nat)).chunksLen = 0 ∧
    (reuseStmt (⟨[⟨900, 0, 3, true, 1⟩], 1,
        ⟨[some 5, none], 1⟩, ⟨[some 7], 1⟩,
        some "b".toList, some "s".toList⟩ : PoolStmt Nat)).chunksStore = [⟨900, 0, 3, true, 1⟩] := by
  have h := sqlf_C8 Nat (⟨[⟨900, 0, 3, true, 1⟩], 1,
    ⟨[some 5, none], 1⟩, ⟨[some 7], 1⟩,
    some "b".toList, some "s".toList⟩ : PoolStmt Nat)
  have hargsinv : ∀ i, (1 : Nat) ≤ i → ([some 5, none] : List (Option Nat)).getD i none = none := by
    intro i hi
    rcases i with _ | _ | i
    · omega
    · rfl
    · exact List.getD_eq_default _ _ (by simp)
  exact ⟨h.2.2.2.2.2.2.2.2.1 hargsinv 0, h.2.2.2.2.2.2.2.2.1 hargsinv 1,
    h.2.2.2.2.2.2.1 0 (by decide), h.1, h.2.1⟩

/-- C5: subquery and union embedding. SubQuery renders the child
eagerly with its dialect forced to passthrough (NoDialect) and writes
prefix, child text and suffix into the parent's buffer, keeping the
parent's argument list extended by the child's arguments at the
insertion point of the prefix chunk; under the positional dialect the
embedded text is numbered by the parent at final render, so with one
parent placeholder before the splice the child's placeholder becomes
$2, and a UNION ALL embedding numbers the second branch after the
first. The Go code then closes the child into the pool. -/
theorem sqlf_C5 :
    (∀ (α : Type) (q child : Stmt α) (pre suf : Str),
      child.sql = none →
      (q.SubQuery pre suf child).buf =
        (q.addChunk q.pos [] pre child.args
          (if q.pos = posWhere then " AND ".toList else ", ".toList)).1.buf ++
        buildSQL { child with dialect := Dialect.NoDialect } ++ suf ∧
      (q.SubQuery pre suf child).args =
        (q.addChunk q.pos [] pre child.args
          (if q.pos = posWhere then " AND ".toList else ", ".toList)).1.args) ∧
    (Stmt.String (Stmt.SubQuery
      (((newStmt Nat Dialect.PostgreSQL).From "t".toList []).Where "a=?".toList [1])
      "EXISTS (".toList ")".toList
      ((((newStmt Nat Dialect.PostgreSQL).From "u".toList []).Select "x".toList
        []).Where "b=?".toList [2]))).2 =
      "FROM t WHERE a=$1 AND EXISTS (SELECT x FROM u WHERE b=$2)".toList ∧
    (Stmt.SubQuery
      (((newStmt Nat Dialect.PostgreSQL).From "t".toList []).Where "a=?".toList [1])
      "EXISTS (".toList ")".toList
      ((((newStmt Nat Dialect.PostgreSQL).From "u".toList []).Select "x".toList
        []).Where "b=?".toList [2])).args = [1, 2] ∧
    (Stmt.String (Stmt.Union
      ((((newStmt Nat Dialect.PostgreSQL).From "t1".toList []).Select "id".toList
        []).Where "a=?".toList [1]) true
      ((((newStmt Nat Dialect.PostgreSQL).From "t2".toList []).Select "id".toList
        []).Where "b=?".toList [2]))).2 =
      "SELECT id FROM t1 WHERE a=$1 UNION ALL SELECT id FROM t2 WHERE b=$2".toList ∧
    (Stmt.Union
      ((((newStmt Nat Dialect.PostgreSQL).From "t1".toList []).Select "id".toList
        []).Where "a=?".toList [1]) true
      ((((newStmt Nat Dialect.PostgreSQL).From "t2".toList []).Select "id".toList
        []).Where "b=?".toList [2])).args = [1, 2] := by
  refine ⟨?_, by decide, by decide, by decide, by decide⟩
  intro α q child pre suf hsql
  rcases child with ⟨cd, cp, cc, cb, cs, ca, cdd⟩
  simp only at hsql
  subst hsql
  unfold Stmt.SubQuery
  rcases cd with _ | _ <;> constructor <;> simp [Stmt.String, buildSQL]

/-- Witness for sqlf_C5: embedding a fresh PostgreSQL child into a
fresh passthrough parent satisfies the buffer and argument equations. -/
theorem sqlf_C5_witness :
    (Stmt.SubQuery (newStmt Nat Dialect.NoDialect) "(".toList ")".toList
        (newStmt Nat Dialect.PostgreSQL)).buf =
      ((newStmt Nat Dialect.NoDialect).addChunk (newStmt Nat Dialect.NoDialect).pos []
        "(".toList (newStmt Nat Dialect.PostgreSQL).args
        (if (newStmt Nat Dialect.NoDialect).pos = posWhere then " AND ".toList
          else ", ".toList)).1.buf ++
      buildSQL { newStmt Nat Dialect.PostgreSQL with dialect := Dialect.NoDialect } ++
      ")".toList ∧
    (Stmt.SubQuery (newStmt Nat Dialect.NoDialect) "(".toList ")".toList
        (newStmt Nat Dialect.PostgreSQL)).args =
      ((newStmt Nat Dialect.NoDialect).addChunk (newStmt Nat Dialect.NoDialect).pos []
        "(".toList (newStmt Nat Dialect.PostgreSQL).args
        (if (newStmt Nat Dialect.NoDialect).pos = posWhere then " AND ".toList
          else ", ".toList)).1.args :=
  sqlf_C5.1 Nat (newStmt Nat Dialect.NoDialect) (newStmt Nat Dialect.PostgreSQL)
    "(".toList ")".toList rfl

/-- C2: argument/placeholder alignment. For a sorted chunk sequence,
any fragment-adding call splices its arguments into the argument list
at offset len(args) - arg_tail, where arg_tail is the total argument
count of the chunks with strictly greater position; every call
preserves both the sort order and the decomposition of the argument
list into per-chunk blocks in chunk render order — the structural form
of "the Nth placeholder of the rendered text corresponds to the Nth
argument"; and concretely adding a SELECT fragment after a WHERE
fragment puts its argument first, matching the placeholder order of
the rendered text and the PostgreSQL numbering. -/
theorem sqlf_C2 :
    (∀ (α : Type) (q : Stmt α) (p : Nat) (clause expr : Str) (args : List α) (sep : Str),
      ChunksSorted q → expr ≠ [] →
      (q.addChunk p clause expr args sep).1.args =
        insertAt q.args args
          (q.args.length - sumArg (q.chunks.filter (fun c => decide (p < c.pos))))) ∧
    (∀ (α : Type) (q : Stmt α) (p : Nat) (clause expr : Str) (args : List α) (sep : Str),
      ChunksSorted q → ArgsAligned q →
      ChunksSorted (q.addChunk p clause expr args sep).1 ∧
      ArgsAligned (q.addChunk p clause expr args sep).1) ∧
    (Stmt.String ((((newStmt Nat Dialect.NoDialect).From "t".toList []).Where
      "a=?".toList [10]).Select "x=?".toList [20])).2 =
      "SELECT x=? FROM t WHERE a=?".toList ∧
    ((((newStmt Nat Dialect.NoDialect).From "t".toList []).Where
      "a=?".toList [10]).Select "x=?".toList [20]).args = [20, 10] ∧
    (Stmt.String ((((newStmt Nat Dialect.PostgreSQL).From "t".toList []).Where
      "a=?".toList [10]).Select "x=?".toList [20])).2 =
      "SELECT x=$1 FROM t WHERE a=$2".toList := by
  exact ⟨fun α q p clause expr args sep hs he => addChunk_args q p clause expr args sep hs he,
    fun α q p clause expr args sep hs hal => addChunk_preserves q p clause expr args sep hs hal,
    by decide, by decide, by decide⟩

/-- Witness for sqlf_C2: the SELECT fragment's argument lands before
the WHERE fragment's argument in a concrete statement, and the
extended statement stays sorted. -/
theorem sqlf_C2_witness :
    ((((newStmt Nat Dialect.NoDialect).From "t".toList []).Where
        "a=?".toList [10]).addChunk posSelect "SELECT".toList "x=?".toList [20] ", ".toList).1.args =
      insertAt (((newStmt Nat Dialect.NoDialect).From "t".toList []).Where
          "a=?".toList [10]).args [20]
        ((((newStmt Nat Dialect.NoDialect).From "t".toList []).Where
          "a=?".toList [10]).args.length -
          sumArg ((((newStmt Nat Dialect.NoDialect).From "t".toList []).Where
            "a=?".toList [10]).chunks.filter (fun c => decide (posSelect < c.pos)))) ∧
    ChunksSorted ((((newStmt Nat Dialect.NoDialect).From "t".toList []).Where
        "a=?".toList [10]).addChunk posSelect "SELECT".toList "x=?".toList [20] ", ".toList).1 :=
  ⟨sqlf_C2.1 Nat (((newStmt Nat Dialect.NoDialect).From "t".toList []).Where "a=?".toList [10])
      posSelect "SELECT".toList "x=?".toList [20] ", ".toList
      (by unfold ChunksSorted; decide) (by decide),
    (sqlf_C2.2.1 Nat (((newStmt Nat Dialect.NoDialect).From "t".toList []).Where "a=?".toList [10])
      posSelect "SELECT".toList "x=?".toList [20] ", ".toList
      (by unfold ChunksSorted; decide)
      ⟨[[], [10]], rfl, List.Forall₂.cons rfl (List.Forall₂.cons rfl List.Forall₂.nil)⟩).1⟩
